import Mathlib

/-!
Shallow embedding of the VAE evaluation utilities in model_evaluation.py:
the loss function vae_loss_function, the latent aggregation generate_latent,
and the loss-ranking calculate_losses, together with proofs of the stated
properties.  Tensors are modelled as a shape together with row-major flat
real data; PyTorch elementwise operations broadcast shapes aligned from the
trailing dimension, failing (None) when two dimensions are incompatible.
-/

namespace VAESpec

variable {α : Type} {I V P W L : Type}

/-- A numeric tensor: a shape and the row-major flat data. -/
structure Tensor (α : Type) where
  shape : List Nat
  data : List α

/-- Well-formedness: the flat data has exactly one entry per tensor element. -/
def Tensor.Wf (t : Tensor α) : Prop := t.data.length = t.shape.prod

/-- Combine one pair of aligned dimensions, PyTorch broadcasting rule:
equal dimensions agree, a dimension of one stretches, anything else errors. -/
def broadcastDim (a b : Nat) : Option Nat :=
  if a = b then some a else if a = 1 then some b else if b = 1 then some a else none

/-- Broadcast two reversed shapes (so alignment is at the head); a missing
leading dimension is treated as present with the other shape's extent. -/
def bcastRev : List Nat → List Nat → Option (List Nat)
  | [], bs => some bs
  | as, [] => some as
  | a :: as, b :: bs =>
    match broadcastDim a b, bcastRev as bs with
    | some d, some ds => some (d :: ds)
    | _, _ => none

/-- The broadcast of two shapes, aligned from the trailing dimension. -/
def broadcastShapes (s1 s2 : List Nat) : Option (List Nat) :=
  (bcastRev s1.reverse s2.reverse).map List.reverse

/-- All multi-indices of a shape, enumerated in row-major order. -/
def allIndices : List Nat → List (List Nat)
  | [] => [[]]
  | d :: ds => (List.range d).flatMap (fun i => (allIndices ds).map (fun ix => i :: ix))

/-- Row-major flat position of a multi-index within a shape. -/
def flatIndex : List Nat → List Nat → Nat
  | _, [] => 0
  | [], _ => 0
  | _ :: ds, i :: is => i * ds.prod + flatIndex ds is

/-- Map a multi-index of the broadcast result shape back into a source
tensor's index space: keep the trailing coordinates and clamp every
stretched (size-one) dimension to zero. -/
def srcIndex (tshape oidx : List Nat) : List Nat :=
  List.zipWith (fun d i => if d = 1 then 0 else i) tshape
    (oidx.drop (oidx.length - tshape.length))

/-- Element of a tensor at a multi-index (zero off the end, never used on
well-formed data at in-range indices). -/
def Tensor.get [Zero α] (t : Tensor α) (ix : List Nat) : α :=
  t.data.getD (flatIndex t.shape ix) 0

/-- Elementwise binary operation with PyTorch broadcasting; fails exactly
when the two shapes are not broadcast-compatible. -/
def broadcastOp [Zero α] (f : α → α → α) (a b : Tensor α) : Option (Tensor α) :=
  match broadcastShapes a.shape b.shape with
  | none => none
  | some s =>
      some ⟨s, (allIndices s).map
        (fun ix => f (a.get (srcIndex a.shape ix)) (b.get (srcIndex b.shape ix)))⟩

/-- Elementwise unary operation (shape preserved). -/
def Tensor.map (f : α → α) (t : Tensor α) : Tensor α := ⟨t.shape, t.data.map f⟩

/-- torch.nn.functional.mse_loss with reduction sum: the sum of the squared
differences of the (broadcast) operands. -/
noncomputable def mse_loss_sum (input target : Tensor ℝ) : Option ℝ :=
  (broadcastOp (fun a b => (a - b) ^ 2) input target).map (fun t => t.data.sum)

/-- vae_loss_function from model_evaluation.py: the sum-reduced MSE plus the
KL term KLD, where KLD is minus one half times the sum of
1 + logvar - mu^2 - exp logvar, with every elementwise operation
broadcasting as in PyTorch. -/
noncomputable def vae_loss_function (recon_x x mu logvar : Tensor ℝ) : Option ℝ := do
  let MSE ← mse_loss_sum recon_x x
  let t2 ← broadcastOp (fun a b => a - b)
    (logvar.map (fun v => 1 + v)) (mu.map (fun v => v ^ 2))
  let t3 ← broadcastOp (fun a b => a - b) t2 (logvar.map Real.exp)
  let KLD := -0.5 * t3.data.sum
  return MSE + KLD

/-- The external VAE model: a training-mode flag, weights, and pure encoder
and forward passes that may read the weights and the mode.  The encoder
yields per-sample mu and logvar rows for a batch; the forward pass yields
the reconstructed batch with the batch latent parameters. -/
structure Model (I V P W : Type) where
  training : Bool
  weights : W
  encoderFn : W → Bool → List I → List V × List V
  forwardFn : W → Bool → List I → List I × P × P

/-- model.eval(): switch the training flag off, everything else unchanged. -/
def Model.eval (m : Model I V P W) : Model I V P W := { m with training := false }

/-- torch.cat over dimension zero: errors on an empty tensor list,
concatenates otherwise. -/
def torch_cat (ts : List (List V)) : Option (List V) :=
  if ts.isEmpty then none else some ts.flatten

/-- generate_latent from model_evaluation.py: put the model in evaluation
mode, run the encoder on every batch collecting mu and logvar batch rows,
then concatenate each collection with torch.cat.  The updated model state
is returned alongside the result. -/
def generate_latent (m : Model I V P W) (dataloader : List (List I)) :
    Option (List V × List V) × Model I V P W :=
  let m2 := m.eval
  let pairs := dataloader.map (fun data => m2.encoderFn m2.weights m2.training data)
  let res :=
    match torch_cat (pairs.map Prod.fst), torch_cat (pairs.map Prod.snd) with
    | some ms, some ls => some (ms, ls)
    | _, _ => none
  (res, m2)

/-- Stable insertion of an (index, value) pair before the first strictly
larger value. -/
def insertPair [LinearOrder L] (p : Nat × L) : List (Nat × L) → List (Nat × L)
  | [] => [p]
  | q :: qs => if p.2 ≤ q.2 then p :: q :: qs else q :: insertPair p qs

/-- Insertion sort of (index, value) pairs by value. -/
def sortPairs [LinearOrder L] : List (Nat × L) → List (Nat × L)
  | [] => []
  | p :: ps => insertPair p (sortPairs ps)

/-- np.argsort: the indices that sort the list ascending by value.  Note
numpy's default kind is quicksort, which does not promise a tie order; this
model realises one admissible output (the stable one, which numpy's
insertion-sort path produces on short arrays). -/
def argsort [LinearOrder L] (l : List L) : List Nat :=
  (sortPairs l.enum).map Prod.fst

/-- sorted_indices[:5] on line 146 of model_evaluation.py. -/
def best_5_indices [LinearOrder L] (losses : List L) : List Nat :=
  (argsort losses).take 5

/-- sorted_indices[-5:] on line 147 of model_evaluation.py: for fewer than
five entries the Python slice is the whole list, modelled by the truncated
subtraction in the drop count. -/
def worst_5_indices [LinearOrder L] (losses : List L) : List Nat :=
  (argsort losses).drop ((argsort losses).length - 5)

/-- The loss list built by the loop of calculate_losses: one entry per
batch of the test loader, each the loss of the whole forwarded batch. -/
def reconstruction_losses (m : Model I V P W) (test_loader : List (List I))
    (loss_function : List I → List I → P → P → L) : List L :=
  test_loader.map (fun data =>
    let out := m.forwardFn m.weights m.training data
    loss_function out.1 data out.2.1 out.2.2)

/-- calculate_losses from model_evaluation.py: put the model in evaluation
mode, collect a per-batch loss list, argsort it, slice the first and last
five sorted indices, and flatten the original and reconstructed batches
image by image.  The updated model state is returned alongside. -/
def calculate_losses [LinearOrder L] (m : Model I V P W) (test_loader : List (List I))
    (loss_function : List I → List I → P → P → L) :
    (List Nat × List Nat × List I × List I) × Model I V P W :=
  let m2 := m.eval
  let losses := reconstruction_losses m2 test_loader loss_function
  ((best_5_indices losses, worst_5_indices losses,
    test_loader.flatten,
    (test_loader.map (fun data => (m2.forwardFn m2.weights m2.training data).1)).flatten), m2)

/-- Concrete tensor of shape two by one (mismatched but broadcastable
against Tx). -/
def Trecon : Tensor ℝ := ⟨[2, 1], [0, 0]⟩

/-- Concrete tensor of shape one by two. -/
def Tx : Tensor ℝ := ⟨[1, 2], [0, 0]⟩

/-- Concrete one-element tensor. -/
def Tmu : Tensor ℝ := ⟨[1], [0]⟩

/-- Concrete two-element vector tensor with matching shapes for witnesses. -/
def Tz : Tensor ℝ := ⟨[2], [0, 0]⟩

/-- Concrete model over natural-number images for witnesses: the encoder
returns the batch itself as both mu and logvar rows, the forward pass
reconstructs the batch unchanged with zero latent parameters. -/
def M0 : Model Nat Nat Nat Unit :=
  ⟨true, (), fun _ _ d => (d, d), fun _ _ d => (d, 0, 0)⟩

/-- Concrete loss function for witnesses: the sum of the original batch. -/
def lf0 : List Nat → List Nat → Nat → Nat → Nat := fun _ d _ _ => d.sum

theorem range_flatMap_mul (d p : Nat) :
    (List.range d).flatMap (fun i => (List.range p).map (fun j => i * p + j)) =
      List.range (d * p) := by
  induction d with
  | zero => simp
  | succ n ih =>
    rw [List.range_succ, List.flatMap_append, ih, Nat.succ_mul, List.range_add]
    simp

theorem map_flatIndex_allIndices (s : List Nat) :
    (allIndices s).map (flatIndex s) = List.range s.prod := by
  induction s with
  | nil =>
    show [flatIndex [] []] = List.range 1
    rfl
  | cons d ds ih =>
    rw [allIndices, List.map_flatMap]
    have h : ∀ i : Nat,
        ((allIndices ds).map (fun ix => i :: ix)).map (flatIndex (d :: ds)) =
          (List.range ds.prod).map (fun j => i * ds.prod + j) := by
      intro i
      rw [List.map_map]
      have : (flatIndex (d :: ds)) ∘ (fun ix => i :: ix) =
          (fun j => i * ds.prod + j) ∘ flatIndex ds := rfl
      rw [this, ← List.map_map, ih]
    simp only [h]
    rw [range_flatMap_mul, List.prod_cons]

theorem length_allIndices (s : List Nat) : (allIndices s).length = s.prod := by
  have h := congrArg List.length (map_flatIndex_allIndices s)
  simpa using h

theorem length_of_mem_allIndices :
    ∀ (s : List Nat) (ix : List Nat), ix ∈ allIndices s → ix.length = s.length := by
  intro s
  induction s with
  | nil =>
    intro ix h
    simp [allIndices] at h
    simp [h]
  | cons d ds ih =>
    intro ix h
    simp only [allIndices, List.mem_flatMap, List.mem_map, List.mem_range] at h
    obtain ⟨i, _, jx, hjx, rfl⟩ := h
    simp [ih jx hjx]

theorem srcIndex_of_mem :
    ∀ (s : List Nat) (ix : List Nat), ix ∈ allIndices s → srcIndex s ix = ix := by
  intro s
  induction s with
  | nil =>
    intro ix h
    simp [allIndices] at h
    simp [h, srcIndex]
  | cons d ds ih =>
    intro ix h
    simp only [allIndices, List.mem_flatMap, List.mem_map, List.mem_range] at h
    obtain ⟨i, hi, jx, hjx, rfl⟩ := h
    have hlen : jx.length = ds.length := length_of_mem_allIndices ds jx hjx
    have htail := ih jx hjx
    unfold srcIndex at htail ⊢
    rw [hlen] at htail
    simp only [Nat.sub_self, List.drop_zero] at htail
    have hdrop : (i :: jx).length - (d :: ds).length = 0 := by
      simp [hlen]
    rw [hdrop, List.drop_zero, List.zipWith_cons_cons, htail]
    congr 1
    by_cases hd : d = 1
    · subst hd
      interval_cases i
      simp
    · simp [hd]

theorem bcastRev_self : ∀ (s : List Nat), bcastRev s s = some s := by
  intro s
  induction s with
  | nil => rfl
  | cons a as ih => simp [bcastRev, broadcastDim, ih]

theorem broadcastShapes_self (s : List Nat) : broadcastShapes s s = some s := by
  simp [broadcastShapes, bcastRev_self]

theorem map_range_zipWith [Zero α] (f : α → α → α) :
    ∀ (n : Nat) (as bs : List α), as.length = n → bs.length = n →
      (List.range n).map (fun k => f (as.getD k 0) (bs.getD k 0)) =
        List.zipWith f as bs := by
  intro n
  induction n with
  | zero =>
    intro as bs ha hb
    rw [List.length_eq_zero] at ha hb
    subst ha; subst hb
    simp
  | succ n ih =>
    intro as bs ha hb
    cases as with
    | nil => simp at ha
    | cons a as2 =>
      cases bs with
      | nil => simp at hb
      | cons b bs2 =>
        simp only [List.length_cons, Nat.succ.injEq] at ha hb
        rw [List.range_succ_eq_map, List.map_cons, List.map_map]
        rw [List.zipWith_cons_cons]
        congr 1
        exact ih as2 bs2 ha hb

theorem broadcastOp_self_shape [Zero α] (f : α → α → α) (a b : Tensor α) (s : List Nat)
    (ha : a.shape = s) (hb : b.shape = s) (hwa : a.Wf) (hwb : b.Wf) :
    broadcastOp f a b = some ⟨s, List.zipWith f a.data b.data⟩ := by
  have hwa2 : a.data.length = s.prod := by
    have := hwa
    unfold Tensor.Wf at this
    rw [ha] at this
    exact this
  have hwb2 : b.data.length = s.prod := by
    have := hwb
    unfold Tensor.Wf at this
    rw [hb] at this
    exact this
  have hdata : (allIndices s).map
      (fun ix => f (a.get (srcIndex s ix)) (b.get (srcIndex s ix))) =
        List.zipWith f a.data b.data := by
    have h1 : (allIndices s).map
        (fun ix => f (a.get (srcIndex s ix)) (b.get (srcIndex s ix))) =
          (allIndices s).map (fun ix => f (a.get ix) (b.get ix)) := by
      apply List.map_congr_left
      intro ix hix
      rw [srcIndex_of_mem s ix hix]
    rw [h1]
    have h2 : (allIndices s).map (fun ix => f (a.get ix) (b.get ix)) =
        (allIndices s).map ((fun k => f (a.data.getD k 0) (b.data.getD k 0)) ∘ flatIndex s) := by
      apply List.map_congr_left
      intro ix _
      simp [Tensor.get, ha, hb, Function.comp]
    rw [h2, ← List.map_map, map_flatIndex_allIndices]
    exact map_range_zipWith f s.prod a.data b.data hwa2 hwb2
  simp only [broadcastOp, ha, hb, broadcastShapes_self]
  rw [hdata]

theorem kl_zip_eq :
    ∀ (ls ms : List ℝ),
      List.zipWith (fun a b => a - b)
        (List.zipWith (fun a b => a - b)
          (ls.map (fun v => 1 + v)) (ms.map (fun v => v ^ 2)))
        (ls.map Real.exp) =
      List.zipWith (fun l m => 1 + l - m ^ 2 - Real.exp l) ls ms := by
  intro ls
  induction ls with
  | nil => intro ms; simp
  | cons l ls2 ih =>
    intro ms
    cases ms with
    | nil => simp
    | cons mm ms2 =>
      simp only [List.map_cons, List.zipWith_cons_cons]
      rw [ih ms2]

theorem zip_sq_sum_nonneg :
    ∀ (as bs : List ℝ), 0 ≤ (List.zipWith (fun a b => (a - b) ^ 2) as bs).sum := by
  intro as
  induction as with
  | nil => intro bs; simp
  | cons a as2 ih =>
    intro bs
    cases bs with
    | nil => simp
    | cons b bs2 =>
      simp only [List.zipWith_cons_cons, List.sum_cons]
      have h := ih bs2
      have h2 : (0 : ℝ) ≤ (a - b) ^ 2 := sq_nonneg _
      linarith

theorem zip_kl_sum_nonpos :
    ∀ (ls ms : List ℝ),
      (List.zipWith (fun l m => 1 + l - m ^ 2 - Real.exp l) ls ms).sum ≤ 0 := by
  intro ls
  induction ls with
  | nil => intro ms; simp
  | cons l ls2 ih =>
    intro ms
    cases ms with
    | nil => simp
    | cons mm ms2 =>
      simp only [List.zipWith_cons_cons, List.sum_cons]
      have h := ih ms2
      have h2 := Real.add_one_le_exp l
      have h3 : (0 : ℝ) ≤ mm ^ 2 := sq_nonneg _
      linarith

theorem map_wf (t : Tensor ℝ) (f : ℝ → ℝ) (h : t.Wf) : (t.map f).Wf := by
  show (t.data.map f).length = t.shape.prod
  simpa using h

theorem vae_loss_eq (recon_x x mu logvar : Tensor ℝ)
    (h1 : recon_x.shape = x.shape) (h2 : mu.shape = logvar.shape)
    (w1 : recon_x.Wf) (w2 : x.Wf) (w3 : mu.Wf) (w4 : logvar.Wf) :
    vae_loss_function recon_x x mu logvar =
      some ((List.zipWith (fun a b => (a - b) ^ 2) recon_x.data x.data).sum +
        -0.5 * (List.zipWith (fun l m => 1 + l - m ^ 2 - Real.exp l)
          logvar.data mu.data).sum) := by
  have hm := broadcastOp_self_shape (fun a b : ℝ => (a - b) ^ 2) recon_x x x.shape h1 rfl w1 w2
  have hmu_shape : (mu.map (fun v => v ^ 2)).shape = logvar.shape := h2
  have ht2 := broadcastOp_self_shape (fun a b : ℝ => a - b)
    (logvar.map (fun v => 1 + v)) (mu.map (fun v => v ^ 2)) logvar.shape
    rfl hmu_shape (map_wf logvar _ w4) (map_wf mu _ w3)
  have hwt2 : (Tensor.mk logvar.shape
      (List.zipWith (fun a b : ℝ => a - b)
        (logvar.map (fun v => 1 + v)).data (mu.map (fun v => v ^ 2)).data)).Wf := by
    unfold Tensor.Wf at w3 w4 ⊢
    simp only [List.length_zipWith, Tensor.map, List.length_map]
    rw [w3, w4, h2, min_self]
  have ht3 := broadcastOp_self_shape (fun a b : ℝ => a - b)
    (Tensor.mk logvar.shape
      (List.zipWith (fun a b : ℝ => a - b)
        (logvar.map (fun v => 1 + v)).data (mu.map (fun v => v ^ 2)).data))
    (logvar.map Real.exp) logvar.shape rfl rfl hwt2 (map_wf logvar _ w4)
  simp only [vae_loss_function, mse_loss_sum]
  rw [hm]
  simp only [Option.map_some', Option.bind_eq_bind, Option.some_bind]
  rw [ht2]
  simp only [Option.some_bind]
  rw [ht3]
  simp only [Option.some_bind, Option.pure_def]
  simp only [Tensor.map]
  rw [kl_zip_eq logvar.data mu.data]

theorem insertPair_length [LinearOrder L] (p : Nat × L) :
    ∀ qs : List (Nat × L), (insertPair p qs).length = qs.length + 1 := by
  intro qs
  induction qs with
  | nil => rfl
  | cons q qs2 ih =>
    by_cases h : p.2 ≤ q.2 <;> simp [insertPair, h, ih]

theorem sortPairs_length [LinearOrder L] :
    ∀ ps : List (Nat × L), (sortPairs ps).length = ps.length := by
  intro ps
  induction ps with
  | nil => rfl
  | cons p ps2 ih => simp [sortPairs, insertPair_length, ih]

theorem argsort_length [LinearOrder L] (l : List L) : (argsort l).length = l.length := by
  simp [argsort, sortPairs_length, List.enum_length]

theorem flatten_length_const {γ : Type} (Ls : List (List γ)) (S : Nat)
    (h : ∀ d ∈ Ls, d.length = S) : Ls.flatten.length = Ls.length * S := by
  induction Ls with
  | nil => simp
  | cons d ds ih =>
    simp only [List.flatten_cons, List.length_append, List.length_cons]
    rw [h d (by simp), ih (fun x hx => h x (by simp [hx]))]
    ring

/-- Claim C1: for reconstructed and original batches of the same shape and
latent parameters of the same shape, vae_loss_function returns exactly the
sum over all elements of the squared differences plus minus one half times
the sum over all latent entries of 1 + logvar - mu squared - exp logvar:
the sum, not the mean, of the two terms. -/
theorem vae_loss_function_spec (recon_x x mu logvar : Tensor ℝ)
    (h1 : recon_x.shape = x.shape) (h2 : mu.shape = logvar.shape)
    (w1 : recon_x.Wf) (w2 : x.Wf) (w3 : mu.Wf) (w4 : logvar.Wf) :
    vae_loss_function recon_x x mu logvar =
      some ((List.zipWith (fun a b => (a - b) ^ 2) recon_x.data x.data).sum +
        -0.5 * (List.zipWith (fun l m => 1 + l - m ^ 2 - Real.exp l)
          logvar.data mu.data).sum) :=
  vae_loss_eq recon_x x mu logvar h1 h2 w1 w2 w3 w4

/-- Witness for claim C1 at concrete well-formed tensors of shape two. -/
theorem vae_loss_function_spec_witness :
    vae_loss_function Tz Tz Tz Tz =
      some ((List.zipWith (fun a b => (a - b) ^ 2) Tz.data Tz.data).sum +
        -0.5 * (List.zipWith (fun l m => 1 + l - m ^ 2 - Real.exp l)
          Tz.data Tz.data).sum) :=
  vae_loss_function_spec Tz Tz Tz Tz rfl rfl rfl rfl rfl rfl

/-- Claim C2, code-bug evidence: with a test loader of two batches of two
images each, the loop of calculate_losses records one loss per batch (a
list of length two), while the originals it returns are flattened per
image (length four), so the loss list is not per-sample and its indices do
not correspond to entries of the flattened lists. -/
theorem calculate_losses_per_batch_not_per_image :
    (reconstruction_losses (Model.eval M0) [[0, 1], [2, 3]] lf0).length = 2 ∧
    ((calculate_losses M0 [[0, 1], [2, 3]] lf0).1.2.2.1).length = 4 ∧
    (2 : Nat) ≠ 4 :=
  ⟨rfl, rfl, by omega⟩

/-- Claim C3, counterexample: on a dataset of zero samples generate_latent
does not return empty sequences; the concatenation step fails, so the call
errors out. -/
theorem generate_latent_empty_fails_cex :
    (generate_latent M0 ([] : List (List Nat))).1 = none := rfl

/-- Claim C3 (amended): for a dataset containing zero samples,
generate_latent fails (torch.cat of an empty tensor list raises) instead of
returning empty mu and logvar sequences. -/
theorem generate_latent_empty_fails {I V P W : Type} (m : Model I V P W) :
    (generate_latent m ([] : List (List I))).1 = none := rfl

/-- Claim C4, counterexample: a call whose reconstruction and original
shapes differ but are broadcast-compatible is not signalled as an error;
the mismatched operands are silently broadcast and a value is returned. -/
theorem vae_loss_function_silently_broadcasts :
    Trecon.shape ≠ Tx.shape ∧ Trecon.Wf ∧ Tx.Wf ∧ Tmu.Wf ∧
      ∃ v, vae_loss_function Trecon Tx Tmu Tmu = some v :=
  ⟨by decide, rfl, rfl, rfl, ⟨_, rfl⟩⟩

/-- Claim C4 (amended): for matching shapes the call never fails; a shape
mismatch is an error only when the shapes are not broadcast-compatible,
otherwise the operands are silently broadcast. -/
theorem vae_loss_function_total_on_matching_shapes (recon_x x mu logvar : Tensor ℝ)
    (h1 : recon_x.shape = x.shape) (h2 : mu.shape = logvar.shape)
    (w1 : recon_x.Wf) (w2 : x.Wf) (w3 : mu.Wf) (w4 : logvar.Wf) :
    ∃ v, vae_loss_function recon_x x mu logvar = some v :=
  ⟨_, vae_loss_eq recon_x x mu logvar h1 h2 w1 w2 w3 w4⟩

/-- Witness for the amended claim C4 at a concrete one-element tensor. -/
theorem vae_loss_function_total_witness :
    ∃ v, vae_loss_function Tmu Tmu Tmu Tmu = some v :=
  vae_loss_function_total_on_matching_shapes Tmu Tmu Tmu Tmu rfl rfl rfl rfl rfl rfl

/-- Claim C6: over a dataset of B batches (B at least one) of S samples
each, with an encoder that yields one mu and one logvar row per sample,
generate_latent succeeds and returns the per-batch encoder outputs
concatenated in dataset-iteration order, each sequence of length B * S. -/
theorem generate_latent_spec {I V P W : Type} (m : Model I V P W)
    (dataloader : List (List I)) (B S : Nat)
    (hB : dataloader.length = B) (hpos : 1 ≤ B)
    (hS : ∀ d ∈ dataloader, d.length = S)
    (henc1 : ∀ d ∈ dataloader, ((m.encoderFn m.weights false d).1).length = d.length)
    (henc2 : ∀ d ∈ dataloader, ((m.encoderFn m.weights false d).2).length = d.length) :
    (generate_latent m dataloader).1 =
      some ((dataloader.map (fun d => (m.encoderFn m.weights false d).1)).flatten,
        (dataloader.map (fun d => (m.encoderFn m.weights false d).2)).flatten) ∧
    ((dataloader.map (fun d => (m.encoderFn m.weights false d).1)).flatten).length = B * S ∧
    ((dataloader.map (fun d => (m.encoderFn m.weights false d).2)).flatten).length = B * S := by
  refine ⟨?_, ?_, ?_⟩
  · cases dataloader with
    | nil => rw [List.length_nil] at hB; omega
    | cons d rest =>
      simp only [generate_latent, Model.eval, torch_cat, List.map_cons, List.map_map]
      simp [Function.comp_def]
  · have hall : ∀ x ∈ dataloader.map (fun d => (m.encoderFn m.weights false d).1),
        x.length = S := by
      intro x hx
      obtain ⟨d, hd, rfl⟩ := List.mem_map.mp hx
      rw [henc1 d hd, hS d hd]
    rw [flatten_length_const _ S hall, List.length_map, hB]
  · have hall : ∀ x ∈ dataloader.map (fun d => (m.encoderFn m.weights false d).2),
        x.length = S := by
      intro x hx
      obtain ⟨d, hd, rfl⟩ := List.mem_map.mp hx
      rw [henc2 d hd, hS d hd]
    rw [flatten_length_const _ S hall, List.length_map, hB]

/-- Witness for claim C6: two batches of two samples through the concrete
model give sequences of length four. -/
theorem generate_latent_spec_witness :
    (generate_latent M0 [[1, 2], [3, 4]]).1 =
      some (([[1, 2], [3, 4]].map (fun d => (M0.encoderFn M0.weights false d).1)).flatten,
        ([[1, 2], [3, 4]].map (fun d => (M0.encoderFn M0.weights false d).2)).flatten) ∧
    (([[1, 2], [3, 4]].map (fun d => (M0.encoderFn M0.weights false d).1)).flatten).length = 2 * 2 ∧
    (([[1, 2], [3, 4]].map (fun d => (M0.encoderFn M0.weights false d).2)).flatten).length = 2 * 2 :=
  generate_latent_spec M0 [[1, 2], [3, 4]] 2 2 rfl (by omega) (by decide)
    (fun _ _ => rfl) (fun _ _ => rfl)

/-- Claim C7: for matching shapes the loss value exists and is nonnegative:
the reconstruction term is a sum of squares and the KL term is nonnegative
because exp logvar is at least 1 + logvar and mu squared is nonnegative. -/
theorem vae_loss_function_nonneg (recon_x x mu logvar : Tensor ℝ)
    (h1 : recon_x.shape = x.shape) (h2 : mu.shape = logvar.shape)
    (w1 : recon_x.Wf) (w2 : x.Wf) (w3 : mu.Wf) (w4 : logvar.Wf) :
    ∃ v, vae_loss_function recon_x x mu logvar = some v ∧ 0 ≤ v := by
  refine ⟨_, vae_loss_eq recon_x x mu logvar h1 h2 w1 w2 w3 w4, ?_⟩
  have ha := zip_sq_sum_nonneg recon_x.data x.data
  have hb := zip_kl_sum_nonpos logvar.data mu.data
  linarith

/-- Witness for claim C7 at concrete well-formed tensors. -/
theorem vae_loss_function_nonneg_witness :
    ∃ v, vae_loss_function Tx Tx Tmu Tmu = some v ∧ 0 ≤ v :=
  vae_loss_function_nonneg Tx Tx Tmu Tmu rfl rfl rfl rfl rfl rfl

/-- Claim C8, counterexample: on an empty test set the ranking function
does not fail; it silently returns empty index lists and empty flattened
sample lists. -/
theorem calculate_losses_empty_silent_cex :
    (calculate_losses M0 ([] : List (List Nat)) lf0).1 = ([], [], [], []) := rfl

/-- Claim C8 (amended): with zero samples calculate_losses does not fail
explicitly; argsort of the empty loss array and the two slices are empty,
so it silently returns empty best and worst index lists together with
empty originals and reconstructions. -/
theorem calculate_losses_empty_silent {I V P W L2 : Type} [LinearOrder L2]
    (m : Model I V P W) (lf : List I → List I → P → P → L2) :
    (calculate_losses m ([] : List (List I)) lf).1 = ([], [], [], []) := rfl

/-- Claim C9: for a loss list with at least one entry, the best and worst
slices of the argsorted index list both have length min 5 N; the slicing
itself is total and never reads out of bounds. -/
theorem ranking_slices_length {L2 : Type} [LinearOrder L2] (losses : List L2)
    (h : 1 ≤ losses.length) :
    (best_5_indices losses).length = min 5 losses.length ∧
    (worst_5_indices losses).length = min 5 losses.length := by
  have hlen := argsort_length losses
  constructor
  · rw [best_5_indices, List.length_take, hlen]
  · rw [worst_5_indices, List.length_drop, hlen]
    omega

/-- Witness for claim C9 on a three-element loss list. -/
theorem ranking_slices_length_witness :
    (best_5_indices ([3, 1, 2] : List Nat)).length = min 5 ([3, 1, 2] : List Nat).length ∧
    (worst_5_indices ([3, 1, 2] : List Nat)).length = min 5 ([3, 1, 2] : List Nat).length :=
  ranking_slices_length ([3, 1, 2] : List Nat) (by decide)

/-- Claim C10: after generate_latent or calculate_losses, the model state
carried out of the call has the training flag off regardless of the flag
before the call, and its weights are the weights it came in with. -/
theorem model_left_in_eval_mode {I V P W I2 V2 P2 W2 L2 : Type} [LinearOrder L2]
    (m : Model I V P W) (dl : List (List I))
    (m2 : Model I2 V2 P2 W2) (tl : List (List I2))
    (lf : List I2 → List I2 → P2 → P2 → L2) :
    ((generate_latent m dl).2.training = false ∧
      (generate_latent m dl).2.weights = m.weights) ∧
    ((calculate_losses m2 tl lf).2.training = false ∧
      (calculate_losses m2 tl lf).2.weights = m2.weights) :=
  ⟨⟨rfl, rfl⟩, ⟨rfl, rfl⟩⟩

end VAESpec
